import Mathlib

/-!
# Verification of `src/malloclab/mm.c`

Shallow embedding of the implicit-free-list, first-fit allocator in
`src/malloclab/mm.c`, together with theorems settling the claims about it.

Modelling conventions:
* C `size_t` values are 64-bit; they are modelled as `Nat` with explicit
  `% 2 ^ 64` (or bit masks bounded by `2 ^ 64`) where overflow matters.
* The heap is modelled as the list of its blocks in address order
  (`heap_start` to `heap_end`); a block records its size field, its
  allocated flag and its payload bytes.  Addresses are byte offsets from
  `heap_start`; a block's payload pointer is its offset plus the 8-byte
  header (`offsetof(block_t, payload) = 8` since `header : size_t`).
* Fresh memory obtained from `mem_sbrk` is modelled as zero-filled.
-/

namespace MM

/-- `WSIZE` from mm.c: word size in bytes. -/
def WSIZE : Nat := 4

/-- `DSIZE` from mm.c: doubleword size in bytes. -/
def DSIZE : Nat := 8

/-- `OVERHEAD` from mm.c: overhead of the header in bytes. -/
def OVERHEAD : Nat := 8

/-- Modulus of C `size_t` arithmetic (64-bit). -/
def wordMod : Nat := 2 ^ 64

/-- `PACK(size, alloc) = ((size) | (alloc))` from mm.c. -/
def PACK (size alloc : Nat) : Nat := size ||| alloc

/-- `GET_SIZE(p) = GET(p) & ~0x7` from mm.c; on a 64-bit `size_t`,
`~0x7` is the constant `2 ^ 64 - 8`. -/
def GET_SIZE (w : Nat) : Nat := w &&& (wordMod - 8)

/-- `GET_ALLOC(p) = GET(p) & 0x1` from mm.c. -/
def GET_ALLOC (w : Nat) : Nat := w &&& 1

/-- The bits of the `~0x7` mask: bits 3..63 are set. -/
theorem wordMask_testBit (i : Nat) :
    (wordMod - 8).testBit i = (decide (3 ≤ i) && decide (i - 3 < 61)) := by
  have hmask : wordMod - 8 = (2 ^ 61 - 1) <<< 3 := by
    rw [Nat.shiftLeft_eq]; norm_num [wordMod]
  rw [hmask, Nat.testBit_shiftLeft, Nat.testBit_two_pow_sub_one]

/-- A multiple of 8 has false low three bits. -/
theorem testBit_of_mod_eight {s : Nat} (hs : s % 8 = 0) {i : Nat} (hi : i < 3) :
    s.testBit i = false := by
  have hrepr : s = (s / 8) <<< 3 := by
    rw [Nat.shiftLeft_eq]
    omega
  rw [hrepr, Nat.testBit_shiftLeft]
  simp [show ¬ (i ≥ 3) by omega]

/-- A value `≤ 1` has false bits above position 0. -/
theorem testBit_le_one {a : Nat} (ha : a ≤ 1) {i : Nat} (hi : 1 ≤ i) :
    a.testBit i = false := by
  apply Nat.testBit_lt_two_pow
  calc a < 2 ^ 1 := by omega
  _ ≤ 2 ^ i := Nat.pow_le_pow_right (by omega) hi

/-- Decoding the size from a packed header recovers the size. -/
theorem GET_SIZE_PACK {s a : Nat} (hs : s % 8 = 0) (hlt : s < 2 ^ 64) (ha : a ≤ 1) :
    GET_SIZE (PACK s a) = s := by
  apply Nat.eq_of_testBit_eq
  intro i
  rw [GET_SIZE, PACK, Nat.testBit_land, Nat.testBit_lor, wordMask_testBit]
  rcases Nat.lt_or_ge i 3 with h3 | h3
  · have hsb : s.testBit i = false := testBit_of_mod_eight hs h3
    simp [hsb, show ¬ (3 ≤ i) by omega]
  · rcases Nat.lt_or_ge i 64 with h64 | h64
    · have hab : a.testBit i = false := testBit_le_one ha (by omega)
      simp [hab, h3, show i - 3 < 61 by omega]
    · have hsb : s.testBit i = false :=
        Nat.testBit_lt_two_pow
          (lt_of_lt_of_le hlt (Nat.pow_le_pow_right (by omega) h64))
      simp [hsb, show ¬ (i - 3 < 61) by omega]

/-- Decoding the allocated flag from a packed header recovers the flag. -/
theorem GET_ALLOC_PACK {s a : Nat} (hs : s % 8 = 0) (ha : a ≤ 1) :
    GET_ALLOC (PACK s a) = a := by
  apply Nat.eq_of_testBit_eq
  intro i
  rw [GET_ALLOC, PACK, Nat.testBit_land, Nat.testBit_lor]
  rcases i with _ | i
  · have hs2 : s % 2 = 0 := by omega
    simp [Nat.testBit_zero, Nat.mod_mod_of_dvd, hs2]
  · have h1 : (1 : Nat).testBit (i + 1) = false := testBit_le_one (by omega) (by omega)
    have hab : a.testBit (i + 1) = false := testBit_le_one ha (by omega)
    simp [h1, hab]

/-- The decoded size of any header word is a multiple of 8. -/
theorem GET_SIZE_mod_eight (w : Nat) : GET_SIZE w % 8 = 0 := by
  have h8 : (8 : Nat) = 2 ^ 3 := by norm_num
  rw [h8]
  apply Nat.eq_of_testBit_eq
  intro i
  rw [Nat.testBit_mod_two_pow]
  simp only [Nat.zero_testBit]
  rcases Nat.lt_or_ge i 3 with h3 | h3
  · have : (GET_SIZE w).testBit i = false := by
      rw [GET_SIZE, Nat.testBit_land, wordMask_testBit]
      simp [show ¬ (3 ≤ i) by omega]
    simp [this]
  · simp [show ¬ (i < 3) by omega]

/-- The decoded size of any header word is below `2 ^ 64`. -/
theorem GET_SIZE_lt (w : Nat) : GET_SIZE w < 2 ^ 64 := by
  apply Nat.lt_pow_two_of_testBit
  intro i hi
  rw [GET_SIZE, Nat.testBit_land, wordMask_testBit]
  simp [show ¬ (i - 3 < 61) by omega]

/-- A heap block (`block_t` plus its extent): the stored size field
(total bytes, header included), the allocated flag, and the payload bytes
(`size - 8` of them in a well-formed heap). -/
structure Block where
  size : Nat
  alloc : Bool
  data : List Nat
deriving DecidableEq

/-- Default block used by positional lookup. -/
def dfltB : Block := ⟨0, true, []⟩

/-- Block at index `k` of the heap. -/
def blockAt (bs : List Block) (k : Nat) : Block := bs.getD k dfltB

/-- Total byte size of a heap (its blocks tile `[heap_start, heap_end)`,
so this is `heap_end - heap_start`). -/
def heapSize (bs : List Block) : Nat := (bs.map Block.size).sum

/-- Byte offset of block `k` from `heap_start`. -/
def addrOf (bs : List Block) (k : Nat) : Nat := heapSize (bs.take k)

/-- The header word a block stores: `PACK(size, alloc)`. -/
def hdrWord (b : Block) : Nat := PACK b.size (if b.alloc then 1 else 0)

/-- The 8 bytes of the stored header word, little-endian. -/
def hdrBytes (b : Block) : List Nat :=
  (List.range 8).map (fun i => hdrWord b / 256 ^ i % 256)

/-- All bytes of a block's extent: header bytes then payload bytes. -/
def blockBytes (b : Block) : List Nat := hdrBytes b ++ b.data

/-- All bytes of the heap, in address order from `heap_start`. -/
def heapBytes (bs : List Block) : List Nat := (bs.map blockBytes).flatten

/-- The heap byte at offset `a` from `heap_start` (0 outside the heap,
matching zero-filled fresh memory). -/
def byteAt (bs : List Block) (a : Nat) : Nat := (heapBytes bs).getD a 0

/-- `GET(p)`: the 64-bit word at byte offset `a`, assembled little-endian. -/
def GET (bs : List Block) (a : Nat) : Nat :=
  ((List.range 8).map (fun i => byteAt bs (a + i) * 256 ^ i)).sum

/-- Well-formed block: size at least the 16-byte minimum block size,
8-byte aligned, and the payload holds exactly `size - 8` bytes. -/
def wfB (b : Block) : Prop :=
  16 ≤ b.size ∧ b.size % 8 = 0 ∧ b.data.length = b.size - 8

/-- Well-formed heap: total size in `size_t` range, all blocks well-formed. -/
def wf (bs : List Block) : Prop :=
  heapSize bs < 2 ^ 64 ∧ ∀ b ∈ bs, wfB b

instance (b : Block) : Decidable (wfB b) := by
  unfold wfB
  infer_instance

instance (bs : List Block) : Decidable (wf bs) := by
  unfold wf
  infer_instance

/-- C `size_t` subtraction `a - b`, for `a < 2 ^ 64` and `b ≤ 2 ^ 64`. -/
def sub64 (a b : Nat) : Nat := (a + 2 ^ 64 - b) % 2 ^ 64

/-- Adjusted block size computed at the top of `mm_malloc`:
`if (size <= DSIZE) asize = DSIZE + OVERHEAD;
 else asize = OVERHEAD + ((size + (DSIZE-1)) / DSIZE) * DSIZE;`
in 64-bit `size_t` arithmetic. -/
def asize_of (size : Nat) : Nat :=
  if size ≤ DSIZE then DSIZE + OVERHEAD
  else (OVERHEAD + ((size + (DSIZE - 1)) % wordMod / DSIZE) * DSIZE) % wordMod

/-- `find_fit(asize)`: first-fit scan in heap order; the index of the first
block with `!GET_ALLOC(bp) && GET_SIZE(bp) >= asize`, if any. -/
def find_fit (asize : Nat) : List Block → Option Nat
  | [] => none
  | b :: bs =>
      if b.alloc = false ∧ asize ≤ b.size then some 0
      else (find_fit asize bs).map (· + 1)

/-- Effect of `place(bp, asize)` on the block it is applied to.
`csize = GET_SIZE(bp)`; if `csize - asize >= 16` (`size_t` subtraction),
split: `PUT(bp, PACK(asize, 1))` makes the head an allocated block of size
`asize` (keeping the first `asize - 8` payload bytes), and
`PUT(NEXT_BLKP(bp), PACK(csize - asize, 0))` writes a free header at
offset `asize`, overwriting the 8 payload bytes at offsets
`asize - 8 .. asize - 1`; the tail's payload is the rest.  Otherwise
`PUT(bp, PACK(csize, 1))` allocates the whole block unchanged. -/
def placeHead (b : Block) (asize : Nat) : List Block :=
  let csize := b.size
  if 16 ≤ sub64 csize asize then
    [⟨asize, true, b.data.take (asize - 8)⟩,
     ⟨sub64 csize asize, false, b.data.drop asize⟩]
  else
    [⟨csize, true, b.data⟩]

/-- `place(bp, asize)` with `bp` the block at index `i`. -/
def place : List Block → Nat → Nat → List Block
  | [], _, _ => []
  | b :: bs, 0, asize => placeHead b asize ++ bs
  | b :: bs, i + 1, asize => b :: place bs i asize

/-- `coalesce(bp)` applied at the head of the given heap tail: if
`next_block < heap_end` and both blocks are free, rewrite the head block's
header with the summed size (`PUT(bp, PACK(size, 0))`).  The absorbed
successor's header bytes remain in memory and become payload bytes of the
merged block. -/
def coalesceHead : List Block → List Block
  | [] => []
  | [b] => [b]
  | b :: b' :: bs =>
      if b.alloc = false ∧ b'.alloc = false then
        ⟨(b.size + b'.size) % wordMod, false, b.data ++ hdrBytes b' ++ b'.data⟩ :: bs
      else b :: b' :: bs

/-- `mm_free` at the located block: clear the allocated flag
(`PUT(blockp, PACK(size, 0))`) then `coalesce(blockp)`. -/
def free_head : List Block → List Block
  | [] => []
  | b :: bs => coalesceHead ({ b with alloc := false } :: bs)

/-- `mm_free` at block index `i`. -/
def mm_free : List Block → Nat → List Block
  | [], _ => []
  | b :: bs, i + 1 => b :: mm_free bs i
  | bs, 0 => free_head bs

/-- `mm_free` locating the block by header offset `a` (`HDRP`-style walk).
An offset not at a block header is undefined behaviour in the C; it is
modelled as a no-op and never arises in the theorems below. -/
def free_at : List Block → Nat → List Block
  | [], _ => []
  | b :: bs, a =>
      if a = 0 then free_head (b :: bs)
      else if a < b.size then b :: bs
      else b :: free_at bs (a - b.size)

/-- `mm_free(ptr)`: the block header is at `HDRP(ptr) = ptr - 8`. -/
def mm_free_p (bs : List Block) (ptr : Nat) : List Block := free_at bs (ptr - 8)

/-- Result of an allocation entry point: either a heap and a payload
pointer, or process termination (`exit(status)`).  There is no
error-return constructor because the code has no error-returning path:
on `mem_sbrk` failure `mm_malloc` calls `exit(1)`. -/
inductive MRes where
  | ok : List Block → Nat → MRes
  | exited : Nat → MRes
deriving DecidableEq

/-- `mm_malloc(size)`, with the success of `mem_sbrk` as a parameter.
Fit path: `place` at the found block and return `GET_PLD_PTR(bp)`
(block offset + 8).  No-fit path: `extend_heap(asize / WSIZE)` — an even
word count, so the heap grows by exactly `asize` bytes — then `place(bp,
asize)`.  `extend_heap` performs no store, so `place` reads the fresh
region's uninitialized header: with zero-filled fresh memory `csize =
GET_SIZE(0) = 0`, the `size_t` difference `csize - asize` wraps to
`2^64 - asize ≥ 16`, the split branch runs, `PUT(bp, PACK(asize, 1))`
makes the region one allocated block of size `asize` with zero payload,
and the stray tail header is written at `bp + asize = heap_end`, outside
`[heap_start, heap_end)` and hence outside the modelled block list.
(For the wrapped case `asize_of size = 0`, `mem_sbrk(0)` grows nothing
and the zero-sized "block" below is a phantom at `heap_end`.)
If `mem_sbrk` fails, the code calls `exit(1)`. -/
def mm_malloc_x (sbrk_ok : Bool) (bs : List Block) (size : Nat) : MRes :=
  let asize := asize_of size
  match find_fit asize bs with
  | some i => .ok (place bs i asize) (addrOf bs i + 8)
  | none =>
      if sbrk_ok then
        .ok (bs ++ [⟨asize, true, List.replicate (asize - 8) 0⟩]) (heapSize bs + 8)
      else .exited 1

/-- `mm_malloc` when `mem_sbrk` succeeds: returns the new heap and the
payload pointer. -/
def mm_malloc (bs : List Block) (size : Nat) : List Block × Nat :=
  match mm_malloc_x true bs size with
  | .ok h p => (h, p)
  | .exited _ => (bs, 0)

/-- Overwrite the bytes of `d` from position `k` with `v` (clamped to the
extent of `d`). -/
def overwriteFrom (d : List Nat) (k : Nat) (v : List Nat) : List Nat :=
  d.take k ++ v.take (d.length - k) ++ d.drop (k + v.length)

/-- Write the byte list `v` starting at heap offset `a`, inside the block
containing `a` (the verified paths only write within one block's payload). -/
def writeBytesAt : List Block → Nat → List Nat → List Block
  | [], _, _ => []
  | b :: bs, a, v =>
      if a < b.size then ⟨b.size, b.alloc, overwriteFrom b.data (a - 8) v⟩ :: bs
      else b :: writeBytesAt bs (a - b.size) v

/-- `memcpy(dst, src, n)` on the heap.  The verified call has disjoint
source and destination ranges, so reading all source bytes before writing
is exact. -/
def memcpyHeap (bs : List Block) (dst src n : Nat) : List Block :=
  writeBytesAt bs dst ((List.range n).map (fun j => byteAt bs (src + j)))

/-- `mm_realloc(ptr, size)` with `mem_sbrk` success as a parameter:
`newp = mm_malloc(size)` (which exits the process on growth failure — the
`newp == NULL` check in the C is dead code since `mm_malloc` never returns
NULL); `copySize = GET_SIZE(HDRP(ptr))`; `if (size < copySize) copySize =
size`; `memcpy(newp, ptr, copySize)`; `mm_free(ptr)`; return `newp`. -/
def mm_realloc_x (sbrk_ok : Bool) (bs : List Block) (ptr size : Nat) : MRes :=
  match mm_malloc_x sbrk_ok bs size with
  | .exited c => .exited c
  | .ok bs1 newp =>
      let copySize := min size (GET_SIZE (GET bs1 (ptr - 8)))
      let bs2 := memcpyHeap bs1 newp ptr copySize
      .ok (mm_free_p bs2 ptr) newp

/-- `mm_realloc` when `mem_sbrk` succeeds. -/
def mm_realloc (bs : List Block) (ptr size : Nat) : List Block × Nat :=
  match mm_realloc_x true bs ptr size with
  | .ok h p => (h, p)
  | .exited _ => (bs, 0)

/-- Word-memory view of the heap, for the code that walks raw pointers:
`mem a` is the word `GET` reads at absolute byte address `a`. -/
structure HeapM where
  mem : Nat → Nat
  heap_start : Nat
  heap_end : Nat

/-- `mm_init`: `mem_sbrk(WSIZE)`, `PUT(bp, 0)` (alignment padding),
`heap_start = bp + WSIZE`, `heap_end = heap_start`.  Fresh memory is
modelled zero-filled, so the padding store writes the value already there. -/
def mm_init : HeapM := { mem := fun _ => 0, heap_start := WSIZE, heap_end := WSIZE }

/-- `extend_heap(words)` when `mem_sbrk` succeeds: round `words` up to an
even count, advance `heap_end` by `words * WSIZE` bytes, and return the old
`heap_end` as the block pointer.  The function performs no store: in
particular it never writes the new region's header.  -/
def extend_heap (h : HeapM) (words : Nat) : HeapM :=
  let w := if words % 2 = 1 then words + 1 else words
  { h with heap_end := h.heap_end + w * WSIZE }

/-- The loop of `find_fit`:
`for (bp = heap_start; bp != heap_end; bp = NEXT_BLKP(bp))`, returning the
first `bp` with `!GET_ALLOC(bp) && GET_SIZE(bp) >= asize`.  `fuel` bounds
the number of iterations purely to make the definition total; the
termination theorem shows the result is fuel-independent once `fuel`
reaches the heap's block count. -/
def find_fit_loop (mem : Nat → Nat) (he : Nat) (asize : Nat) :
    Nat → Nat → Option Nat
  | 0, _ => none
  | fuel + 1, bp =>
      if bp = he then none
      else if GET_ALLOC (mem bp) = 0 ∧ asize ≤ GET_SIZE (mem bp) then some bp
      else find_fit_loop mem he asize fuel (bp + GET_SIZE (mem bp))

/-- `mem` stores the heap `bs` starting at absolute address `base`: each
block's header word sits at the block's address. -/
def encodes (mem : Nat → Nat) (base : Nat) (bs : List Block) : Prop :=
  ∀ k, k < bs.length → mem (base + addrOf bs k) = hdrWord (blockAt bs k)

/-- No two blocks adjacent in heap order are both free. -/
def noAdjacentFree (bs : List Block) : Prop :=
  ∀ k, k < bs.length →
    ¬((blockAt bs k).alloc = false ∧ (blockAt bs (k + 1)).alloc = false)

instance (bs : List Block) : Decidable (noAdjacentFree bs) := by
  unfold noAdjacentFree
  infer_instance

/-! ## Arithmetic and list toolkit -/

theorem two64_eq : (2 : Nat) ^ 64 = 18446744073709551616 := by norm_num

theorem sub64_eq {a b : Nat} (hb : b ≤ a) (ha : a < 2 ^ 64) :
    sub64 a b = a - b := by
  have h := two64_eq
  unfold sub64
  omega

theorem heapSize_nil : heapSize [] = 0 := rfl

theorem heapSize_cons (b : Block) (bs : List Block) :
    heapSize (b :: bs) = b.size + heapSize bs := by
  simp [heapSize]

theorem heapSize_append (X Y : List Block) :
    heapSize (X ++ Y) = heapSize X + heapSize Y := by
  simp [heapSize]

theorem addrOf_zero (bs : List Block) : addrOf bs 0 = 0 := rfl

theorem addrOf_succ_cons (b : Block) (bs : List Block) (k : Nat) :
    addrOf (b :: bs) (k + 1) = b.size + addrOf bs k := by
  simp [addrOf, heapSize]

theorem addrOf_mono (bs : List Block) {i j : Nat} (h : i ≤ j) :
    addrOf bs i ≤ addrOf bs j := by
  induction bs generalizing i j with
  | nil => simp [addrOf, heapSize]
  | cons b bs ih =>
      rcases i with _ | i
      · simp [addrOf_zero]
      · rcases j with _ | j
        · omega
        · rw [addrOf_succ_cons, addrOf_succ_cons]
          exact Nat.add_le_add_left (ih (by omega)) _

theorem addrOf_prefix (P : List Block) (l : List Block) :
    addrOf (P ++ l) P.length = heapSize P := by
  simp [addrOf, List.take_left]

theorem blockAt_cons_zero (b : Block) (bs : List Block) : blockAt (b :: bs) 0 = b := rfl

theorem blockAt_cons_succ (b : Block) (bs : List Block) (k : Nat) :
    blockAt (b :: bs) (k + 1) = blockAt bs k := rfl

theorem blockAt_prefix (P : List Block) (b : Block) (l : List Block) :
    blockAt (P ++ b :: l) P.length = b := by
  simp [blockAt, List.getElem?_append_right (Nat.le_refl P.length)]

theorem size_le_heapSize {bs : List Block} {b : Block} (h : b ∈ bs) :
    b.size ≤ heapSize bs := by
  induction bs with
  | nil => cases h
  | cons x xs ih =>
      rw [heapSize_cons]
      rcases List.mem_cons.mp h with rfl | hx
      · omega
      · have := ih hx
        omega

/-- Facts about the adjusted size, away from `size_t` overflow: it is the
least multiple of 8 that is at least `requested + 8` and at least 16, and
it matches the two-branch formula of `mm_malloc`. -/
theorem asize_facts (n : Nat) (hn : n ≤ 2 ^ 64 - 16) :
    asize_of n % 8 = 0 ∧ n + 8 ≤ asize_of n ∧ 16 ≤ asize_of n ∧
    (∀ m, m % 8 = 0 → n + 8 ≤ m → 16 ≤ m → asize_of n ≤ m) ∧
    (n ≤ 8 → asize_of n = 16) ∧
    (8 < n → asize_of n = 8 + (n + 7) / 8 * 8) := by
  have h64 := two64_eq
  simp only [asize_of, DSIZE, OVERHEAD, wordMod]
  by_cases h : n ≤ 8
  · rw [if_pos h]
    refine ⟨by norm_num, by omega, by norm_num, ?_, fun _ => rfl, fun hc => absurd h (by omega)⟩
    intro m h8 _ h16
    omega
  · rw [if_neg h]
    have hmod : (n + 7) % 2 ^ 64 = n + 7 := Nat.mod_eq_of_lt (by omega)
    rw [hmod]
    have hout : (8 + (n + 7) / 8 * 8) % 2 ^ 64 = 8 + (n + 7) / 8 * 8 := by
      apply Nat.mod_eq_of_lt
      omega
    rw [hout]
    refine ⟨by omega, by omega, by omega, ?_, fun hc => absurd hc (by omega), fun _ => rfl⟩
    intro m h8 hge _
    omega

theorem asize_of_mod8 (n : Nat) : asize_of n % 8 = 0 := by
  have h64 := two64_eq
  simp only [asize_of, DSIZE, OVERHEAD, wordMod]
  by_cases h : n ≤ 8
  · rw [if_pos h]
  · rw [if_neg h]
    omega

/-! ## `find_fit` helper lemmas -/

theorem find_fit_sound (asize : Nat) (bs : List Block) (i : Nat)
    (h : find_fit asize bs = some i) :
    i < bs.length ∧ (blockAt bs i).alloc = false ∧ asize ≤ (blockAt bs i).size := by
  induction bs generalizing i with
  | nil => simp [find_fit] at h
  | cons b bs ih =>
      rw [find_fit] at h
      split at h
      · rename_i hc
        cases h
        exact ⟨by simp, hc.1, hc.2⟩
      · rcases Option.map_eq_some'.mp h with ⟨i', hi', rfl⟩
        obtain ⟨h1, h2, h3⟩ := ih i' hi'
        refine ⟨by simpa using Nat.succ_lt_succ h1, ?_, ?_⟩
        · rwa [blockAt_cons_succ]
        · rwa [blockAt_cons_succ]

theorem find_fit_first (asize : Nat) (bs : List Block) (i : Nat)
    (h : find_fit asize bs = some i) :
    ∀ j, (blockAt bs j).alloc = false → asize ≤ (blockAt bs j).size → i ≤ j := by
  induction bs generalizing i with
  | nil => simp [find_fit] at h
  | cons b bs ih =>
      rw [find_fit] at h
      split at h
      · cases h
        intro j _ _
        omega
      · rename_i hc
        rcases Option.map_eq_some'.mp h with ⟨i', hi', rfl⟩
        intro j hj1 hj2
        rcases j with _ | j
        · rw [blockAt_cons_zero] at hj1 hj2
          exact absurd ⟨hj1, hj2⟩ hc
        · rw [blockAt_cons_succ] at hj1 hj2
          have := ih i' hi' j hj1 hj2
          omega

theorem find_fit_none (asize : Nat) (bs : List Block)
    (h : find_fit asize bs = none) :
    ∀ j, j < bs.length →
      ¬((blockAt bs j).alloc = false ∧ asize ≤ (blockAt bs j).size) := by
  induction bs with
  | nil => intro j hj; simp at hj
  | cons b bs ih =>
      rw [find_fit] at h
      split at h
      · exact absurd h (by simp)
      · rename_i hc
        intro j hj
        rcases j with _ | j
        · rw [blockAt_cons_zero]
          exact hc
        · rw [blockAt_cons_succ]
          exact ih (by simpa using h) j (by simpa using hj)

/-! ## `place` helper lemmas -/

theorem place_append (A : List Block) (b : Block) (B : List Block) (asize : Nat) :
    place (A ++ b :: B) A.length asize = A ++ (placeHead b asize ++ B) := by
  induction A with
  | nil => simp [place]
  | cons x A ih => simp [place, ih]

theorem heapSize_placeHead (b : Block) (asize : Nat)
    (h : asize ≤ b.size) (hlt : b.size < 2 ^ 64) :
    heapSize (placeHead b asize) = b.size := by
  simp only [placeHead, sub64_eq h hlt]
  split
  · simp [heapSize]
    omega
  · simp [heapSize]

theorem placeHead_wfB (b : Block) (asize : Nat) (hb : wfB b)
    (h16 : 16 ≤ asize) (h8 : asize % 8 = 0) (hle : asize ≤ b.size)
    (hlt : b.size < 2 ^ 64) :
    ∀ x ∈ placeHead b asize, wfB x := by
  obtain ⟨hb16, hb8, hbd⟩ := hb
  simp only [placeHead, sub64_eq hle hlt]
  split
  · rename_i hc
    intro x hx
    rcases List.mem_cons.mp hx with rfl | hx
    · refine ⟨h16, h8, ?_⟩
      show (b.data.take (asize - 8)).length = asize - 8
      simp [hbd]
      omega
    · rcases List.mem_cons.mp hx with rfl | hx
      · refine ⟨hc, ?_, ?_⟩
        · show (b.size - asize) % 8 = 0
          omega
        · show (b.data.drop asize).length = b.size - asize - 8
          simp [hbd]
          omega
      · cases hx
  · intro x hx
    rcases List.mem_cons.mp hx with rfl | hx
    · exact ⟨hb16, hb8, hbd⟩
    · cases hx

/-! ## C1: first-fit search -/

/-- C1: `find_fit` performs a first-fit search: when it returns a block,
that block is free, large enough, and is the first such block in heap order
(hence the lowest-addressed fit, addresses being monotone in block index);
when it returns no fit, no free block of sufficient size exists. -/
theorem C1_find_fit_first_fit (asize : Nat) (bs : List Block) :
    (∀ i, find_fit asize bs = some i →
      i < bs.length ∧ (blockAt bs i).alloc = false ∧ asize ≤ (blockAt bs i).size ∧
      ∀ j, (blockAt bs j).alloc = false → asize ≤ (blockAt bs j).size →
        i ≤ j ∧ addrOf bs i ≤ addrOf bs j) ∧
    (find_fit asize bs = none →
      ∀ j, j < bs.length →
        ¬((blockAt bs j).alloc = false ∧ asize ≤ (blockAt bs j).size)) := by
  constructor
  · intro i hi
    obtain ⟨h1, h2, h3⟩ := find_fit_sound asize bs i hi
    refine ⟨h1, h2, h3, fun j hj1 hj2 => ?_⟩
    have hij := find_fit_first asize bs i hi j hj1 hj2
    exact ⟨hij, addrOf_mono bs hij⟩
  · exact find_fit_none asize bs

/-- Witness for C1 on a concrete heap: the allocated first block is
skipped and the free second block is returned. -/
theorem C1_find_fit_first_fit_witness :
    find_fit 16 [⟨16, true, []⟩, ⟨24, false, []⟩] = some 1 ∧
    (blockAt [⟨16, true, []⟩, ⟨24, false, []⟩] 1).alloc = false ∧
    16 ≤ (blockAt [⟨16, true, []⟩, ⟨24, false, []⟩] 1).size :=
  ⟨by decide,
   ((C1_find_fit_first_fit 16 [⟨16, true, []⟩, ⟨24, false, []⟩]).1 1 (by decide)).2.1,
   ((C1_find_fit_first_fit 16 [⟨16, true, []⟩, ⟨24, false, []⟩]).1 1 (by decide)).2.2.1⟩

/-! ## C2: placement with splitting -/

/-- C2: for a free block of size `csize` chosen as a fit for `asize`
(`asize ≤ csize`), `place` splits it into an allocated head of size
exactly `asize` immediately followed by a new free block of size
`csize - asize` when `csize - asize ≥ 16`, and otherwise allocates the
whole block without changing its size. -/
theorem C2_place_split (A B : List Block) (csize asize : Nat) (d : List Nat)
    (hfit : asize ≤ csize) (hlt : csize < 2 ^ 64) :
    place (A ++ ⟨csize, false, d⟩ :: B) A.length asize =
      if 16 ≤ csize - asize then
        A ++ ⟨asize, true, d.take (asize - 8)⟩ ::
          ⟨csize - asize, false, d.drop asize⟩ :: B
      else A ++ ⟨csize, true, d⟩ :: B := by
  rw [place_append]
  simp only [placeHead, sub64_eq hfit hlt]
  by_cases hc : 16 ≤ csize - asize <;> simp [hc]

/-- Witness for C2 on a concrete heap: a 48-byte free block placed with
`asize = 16` splits into a 16-byte allocated head and a 32-byte free tail. -/
theorem C2_place_split_witness :
    place ([] ++ ⟨48, false, List.range 40⟩ :: []) (List.length ([] : List Block)) 16 =
      if 16 ≤ 48 - 16 then
        [] ++ ⟨16, true, (List.range 40).take (16 - 8)⟩ ::
          ⟨48 - 16, false, (List.range 40).drop 16⟩ :: []
      else [] ++ ⟨48, true, List.range 40⟩ :: [] :=
  C2_place_split [] [] 48 16 (List.range 40) (by decide) (by decide)

/-! ## C7: adjusted size computation -/

/-- C7 fails as stated: at `requested_size = 2^64 - 1` the `size_t`
computation `OVERHEAD + ((size + (DSIZE-1)) / DSIZE) * DSIZE` wraps,
yielding `asize = 8`, which is not `≥ requested_size + 8` (and not the
claimed `8 + round_up(requested_size, 8)`value, and below the minimum
block size 16). -/
theorem C7_counterexample :
    asize_of (2 ^ 64 - 1) = 8 ∧ ¬(2 ^ 64 - 1 + 8 ≤ asize_of (2 ^ 64 - 1)) ∧
    ¬(16 ≤ asize_of (2 ^ 64 - 1)) := by
  decide

/-- C7 amended: for every `requested_size ≤ 2^64 - 16` (so that the
64-bit computation does not overflow), `asize` is the smallest multiple
of 8 that is ≥ `requested_size + 8` and ≥ the minimum block size 16;
concretely `asize = 16` when `requested_size ≤ 8` and
`asize = 8 + round_up(requested_size, 8)` otherwise. -/
theorem C7_asize_adjustment (n : Nat) (hn : n ≤ 2 ^ 64 - 16) :
    asize_of n % 8 = 0 ∧ n + 8 ≤ asize_of n ∧ 16 ≤ asize_of n ∧
    (∀ m, m % 8 = 0 → n + 8 ≤ m → 16 ≤ m → asize_of n ≤ m) ∧
    (n ≤ 8 → asize_of n = 16) ∧
    (8 < n → asize_of n = 8 + (n + 7) / 8 * 8) :=
  asize_facts n hn

/-- Witness for the amended C7 at `requested_size = 24`. -/
theorem C7_asize_adjustment_witness :
    asize_of 24 % 8 = 0 ∧ 24 + 8 ≤ asize_of 24 ∧
    asize_of 24 = 8 + (24 + 7) / 8 * 8 :=
  ⟨(C7_asize_adjustment 24 (by decide)).1,
   (C7_asize_adjustment 24 (by decide)).2.1,
   (C7_asize_adjustment 24 (by decide)).2.2.2.2.2 (by decide)⟩

/-! ## `mm_free` and `coalesce` helper lemmas -/

theorem mm_free_cons_succ (b : Block) (bs : List Block) (p : Nat) :
    mm_free (b :: bs) (p + 1) = b :: mm_free bs p := rfl

theorem mm_free_cons_zero (b : Block) (bs : List Block) :
    mm_free (b :: bs) 0 = free_head (b :: bs) := rfl

theorem free_head_single (b : Block) :
    free_head [b] = [⟨b.size, false, b.data⟩] := rfl

theorem free_head_cons_alloc (b c : Block) (cs : List Block) (h : c.alloc = true) :
    free_head (b :: c :: cs) = ⟨b.size, false, b.data⟩ :: c :: cs := by
  simp [free_head, coalesceHead, h]

theorem free_head_cons_free (b c : Block) (cs : List Block) (h : c.alloc = false) :
    free_head (b :: c :: cs) =
      ⟨(b.size + c.size) % wordMod, false, b.data ++ hdrBytes c ++ c.data⟩ :: cs := by
  simp [free_head, coalesceHead, h]

theorem free_at_append (X l : List Block) (hX : ∀ x ∈ X, 0 < x.size) :
    free_at (X ++ l) (heapSize X) = X ++ free_head l := by
  induction X with
  | nil =>
      cases l with
      | nil => rfl
      | cons b bs => simp [free_at, heapSize_nil, free_head]
  | cons x X ih =>
      have hx : 0 < x.size := hX x (by simp)
      rw [List.cons_append]
      rw [show free_at (x :: (X ++ l)) (heapSize (x :: X)) =
        if heapSize (x :: X) = 0 then free_head (x :: (X ++ l))
        else if heapSize (x :: X) < x.size then x :: (X ++ l)
        else x :: free_at (X ++ l) (heapSize (x :: X) - x.size) from rfl]
      rw [heapSize_cons]
      rw [if_neg (by omega), if_neg (by omega)]
      have harg : x.size + heapSize X - x.size = heapSize X := by omega
      rw [harg, ih (fun y hy => hX y (by simp [hy]))]
      rfl

/-! ## C3: free then forward coalesce -/

/-- C3: `mm_free(ptr)` clears the allocated flag of the block headed at
`ptr - 8`; then, if the following block exists (is before `heap_end`) and
is free, the current block's header is rewritten so that the single
resulting free block's size is the sum of the two sizes; if the successor
is allocated or absent, the size is unchanged and no merge occurs. -/
theorem C3_free_clears_and_merges (A B : List Block) (b : Block)
    (hA : ∀ x ∈ A, 0 < x.size)
    (hsum : b.size + (blockAt B 0).size < 2 ^ 64) :
    (B = [] → mm_free_p (A ++ b :: B) (heapSize A + 8) =
        A ++ [⟨b.size, false, b.data⟩]) ∧
    (∀ c B', B = c :: B' → c.alloc = true →
      mm_free_p (A ++ b :: B) (heapSize A + 8) =
        A ++ ⟨b.size, false, b.data⟩ :: c :: B') ∧
    (∀ c B', B = c :: B' → c.alloc = false →
      mm_free_p (A ++ b :: B) (heapSize A + 8) =
        A ++ ⟨b.size + c.size, false, b.data ++ hdrBytes c ++ c.data⟩ :: B') := by
  have hptr : heapSize A + 8 - 8 = heapSize A := by omega
  refine ⟨?_, ?_, ?_⟩
  · rintro rfl
    rw [mm_free_p, hptr, free_at_append A [b] hA, free_head_single]
  · rintro c B' rfl hc
    rw [mm_free_p, hptr, free_at_append A (b :: c :: B') hA,
      free_head_cons_alloc b c B' hc]
  · rintro c B' rfl hc
    rw [mm_free_p, hptr, free_at_append A (b :: c :: B') hA,
      free_head_cons_free b c B' hc]
    have : (b.size + c.size) % wordMod = b.size + c.size := by
      apply Nat.mod_eq_of_lt
      rw [blockAt_cons_zero] at hsum
      exact hsum
    rw [this]

/-- Witness for C3 on a concrete heap: freeing a 16-byte allocated block
whose successor is free merges them into one 32-byte free block. -/
theorem C3_free_clears_and_merges_witness :
    mm_free_p ([] ++ (⟨16, true, [1, 2, 3, 4, 5, 6, 7, 8]⟩ : Block) ::
        [⟨16, false, [9, 9, 9, 9, 9, 9, 9, 9]⟩]) (heapSize [] + 8) =
      [] ++ (⟨16 + 16, false,
        [1, 2, 3, 4, 5, 6, 7, 8] ++ hdrBytes ⟨16, false, [9, 9, 9, 9, 9, 9, 9, 9]⟩ ++
          [9, 9, 9, 9, 9, 9, 9, 9]⟩ : Block) :: [] :=
  (C3_free_clears_and_merges [] [⟨16, false, [9, 9, 9, 9, 9, 9, 9, 9]⟩]
      ⟨16, true, [1, 2, 3, 4, 5, 6, 7, 8]⟩ (by simp) (by decide)).2.2
    ⟨16, false, [9, 9, 9, 9, 9, 9, 9, 9]⟩ [] rfl rfl

/-! ## C4: the no-adjacent-free invariant -/

/-- C4 fails as stated: freeing the two blocks of a fully allocated
two-block heap in address order (first block first) leaves two adjacent
free blocks, because coalescing is forward-only: the second free has no
successor to merge with and never looks at its free predecessor. -/
theorem C4_counterexample :
    ¬ noAdjacentFree
        (mm_free (mm_free [⟨16, true, List.replicate 8 0⟩,
            ⟨16, true, List.replicate 8 0⟩] 0) 1) := by
  decide

/-- C4 amended: provided no two adjacent blocks are both free before the
free, after `mm_free` completes the freed (possibly merged) block and its
immediate successor are not both free.  (The freed block may still be
adjacent to a free predecessor: coalescing is forward-only.) -/
theorem C4_freed_successor_not_free (bs : List Block) (p : Nat)
    (hpre : noAdjacentFree bs) (hp : p < bs.length)
    (halloc : (blockAt bs p).alloc = true) :
    (blockAt (mm_free bs p) p).alloc = false ∧
    (p + 1 < (mm_free bs p).length →
      (blockAt (mm_free bs p) (p + 1)).alloc = true) := by
  induction bs generalizing p with
  | nil => simp at hp
  | cons b bs ih =>
      rcases p with _ | p
      · rw [blockAt_cons_zero] at halloc
        rw [mm_free_cons_zero]
        cases bs with
        | nil =>
            rw [free_head_single]
            exact ⟨rfl, by intro h; simp at h⟩
        | cons c cs =>
            by_cases hc : c.alloc = false
            · rw [free_head_cons_free b c cs hc]
              refine ⟨rfl, fun _ => ?_⟩
              have h1 : ¬((blockAt (b :: c :: cs) 1).alloc = false ∧
                  (blockAt (b :: c :: cs) 2).alloc = false) :=
                hpre 1 (by simp)
              rw [blockAt_cons_succ, blockAt_cons_zero] at h1
              rw [blockAt_cons_succ, blockAt_cons_succ] at h1
              rw [blockAt_cons_succ]
              rcases Bool.eq_false_or_eq_true (blockAt cs 0).alloc with h | h
              · exact h
              · exact absurd ⟨hc, h⟩ h1
            · have hct : c.alloc = true := by
                rcases Bool.eq_false_or_eq_true c.alloc with h | h
                · exact h
                · exact absurd h hc
              rw [free_head_cons_alloc b c cs hct]
              refine ⟨rfl, fun _ => ?_⟩
              rw [blockAt_cons_succ, blockAt_cons_zero]
              exact hct
      · rw [mm_free_cons_succ]
        have hpre' : noAdjacentFree bs := by
          intro k hk
          have := hpre (k + 1) (by simpa using Nat.succ_lt_succ hk)
          rwa [blockAt_cons_succ, blockAt_cons_succ] at this
        rw [blockAt_cons_succ] at halloc
        obtain ⟨h1, h2⟩ := ih p hpre' (by simpa using hp) halloc
        refine ⟨?_, ?_⟩
        · rw [blockAt_cons_succ]
          exact h1
        · intro hlen
          rw [blockAt_cons_succ]
          apply h2
          simpa using hlen

/-- Witness for the amended C4: freeing the allocated head of a heap whose
successor is free merges them, and the merged block has no free successor. -/
theorem C4_freed_successor_not_free_witness :
    (blockAt (mm_free [⟨16, true, List.replicate 8 0⟩,
        ⟨16, false, List.replicate 8 0⟩] 0) 0).alloc = false ∧
    (0 + 1 < (mm_free [⟨16, true, List.replicate 8 0⟩,
        ⟨16, false, List.replicate 8 0⟩] 0).length →
      (blockAt (mm_free [⟨16, true, List.replicate 8 0⟩,
          ⟨16, false, List.replicate 8 0⟩] 0) (0 + 1)).alloc = true) :=
  C4_freed_successor_not_free
    [⟨16, true, List.replicate 8 0⟩, ⟨16, false, List.replicate 8 0⟩] 0
    (by decide) (by decide) (by decide)

/-! ## C5: heap extension -/

/-- C5 names the intended behaviour (the code's own comment says
"Extend heap with free block"), but `extend_heap` performs no store at all:
it never writes `PUT(bp, PACK(size, 0))`, so the extended region does not
become a free block with a header recording the extension size.  Concretely,
after `mm_init`, the extension requested by `mm_malloc(1)`
(`extend_heap(16 / WSIZE)`) advances `heap_end` by 16 bytes but leaves the
region's header word equal to the fresh-memory value 0, whose decoded size
is 0, not 16. -/
theorem C5_extend_heap_missing_header :
    (∀ (h : HeapM) (w : Nat), (extend_heap h w).mem = h.mem) ∧
    (extend_heap mm_init 4).heap_end = mm_init.heap_end + 16 ∧
    (extend_heap mm_init 4).mem mm_init.heap_end ≠ PACK 16 0 ∧
    GET_SIZE ((extend_heap mm_init 4).mem mm_init.heap_end) = 0 := by
  refine ⟨fun h w => rfl, rfl, ?_, ?_⟩
  · norm_num [mm_init, extend_heap, PACK]
  · norm_num [mm_init, extend_heap, GET_SIZE]

/-! ## C6: behaviour on growth-primitive failure -/

/-- C6 fails as stated: when `mem_sbrk` fails with no fitting free block,
`mm_malloc` does not return an `OutOfMemory` error to its caller — it
terminates the process via `exit(1)`; the same happens inside the
`mm_malloc` call made by `mm_realloc`. -/
theorem C6_counterexample :
    mm_malloc_x false [] 1 = MRes.exited 1 ∧
    mm_realloc_x false [⟨16, true, List.replicate 8 0⟩] 8 9 = MRes.exited 1 := by
  decide

/-- C6 amended: whenever the growth primitive fails during an allocate or
reallocate with no fitting free block, the process exits with status 1;
no error value is returned to the caller (and no retry occurs — the
single failed `mem_sbrk` attempt leads directly to `exit(1)`). -/
theorem C6_exit_on_growth_failure (bs : List Block) (n : Nat)
    (hnofit : find_fit (asize_of n) bs = none) :
    mm_malloc_x false bs n = MRes.exited 1 ∧
    ∀ ptr, mm_realloc_x false bs ptr n = MRes.exited 1 := by
  have hm : mm_malloc_x false bs n = MRes.exited 1 := by
    simp [mm_malloc_x, hnofit]
  exact ⟨hm, fun ptr => by simp [mm_realloc_x, hm]⟩

/-- Witness for the amended C6 at a concrete empty heap. -/
theorem C6_exit_on_growth_failure_witness :
    mm_malloc_x false [] 5 = MRes.exited 1 ∧
    mm_realloc_x false [] 8 5 = MRes.exited 1 :=
  ⟨(C6_exit_on_growth_failure [] 5 (by decide)).1,
   (C6_exit_on_growth_failure [] 5 (by decide)).2 8⟩

/-! ## C9: header packing round-trip -/

/-- C9: for every 8-aligned size in `size_t` range and flag in {0, 1},
decoding the packed header `PACK(s, a)` recovers `s` and `a` exactly, and
`GET_SIZE` of any header word is a multiple of 8. -/
theorem C9_pack_roundtrip :
    (∀ s a : Nat, s % 8 = 0 → s < 2 ^ 64 → a ≤ 1 →
      GET_SIZE (PACK s a) = s ∧ GET_ALLOC (PACK s a) = a) ∧
    ∀ w : Nat, GET_SIZE w % 8 = 0 :=
  ⟨fun _ _ hs hlt ha => ⟨GET_SIZE_PACK hs hlt ha, GET_ALLOC_PACK hs ha⟩,
   GET_SIZE_mod_eight⟩

/-- Witness for C9 at `s = 4096`, `a = 1`. -/
theorem C9_pack_roundtrip_witness :
    GET_SIZE (PACK 4096 1) = 4096 ∧ GET_ALLOC (PACK 4096 1) = 1 :=
  C9_pack_roundtrip.1 4096 1 (by decide) (by decide) (by decide)

/-! ## C10: termination and correctness of the first-fit scan -/

theorem hdrWord_size {b : Block} (h8 : b.size % 8 = 0) (hlt : b.size < 2 ^ 64) :
    GET_SIZE (hdrWord b) = b.size :=
  GET_SIZE_PACK h8 hlt (by split <;> omega)

theorem hdrWord_alloc {b : Block} (h8 : b.size % 8 = 0) :
    GET_ALLOC (hdrWord b) = if b.alloc then 1 else 0 :=
  GET_ALLOC_PACK h8 (by split <;> omega)

theorem addrOf_succ (bs : List Block) (k : Nat) (hk : k < bs.length) :
    addrOf bs (k + 1) = addrOf bs k + (blockAt bs k).size := by
  induction bs generalizing k with
  | nil => simp at hk
  | cons b bs ih =>
      rcases k with _ | k
      · simp [addrOf_succ_cons, addrOf_zero, blockAt_cons_zero]
      · rw [addrOf_succ_cons, addrOf_succ_cons, blockAt_cons_succ,
          ih k (by simpa using hk)]
        omega

/-- The scanning loop computes `find_fit` on the abstract heap once the
fuel reaches the block count. -/
theorem find_fit_loop_eq (bs : List Block) :
    ∀ (mem : Nat → Nat) (base asize fuel : Nat),
      encodes mem base bs → (∀ b ∈ bs, wfB b ∧ b.size < 2 ^ 64) →
      bs.length ≤ fuel →
      find_fit_loop mem (base + heapSize bs) asize fuel base =
        (find_fit asize bs).map (fun i => base + addrOf bs i) := by
  induction bs with
  | nil =>
      intro mem base asize fuel _ _ _
      rcases fuel with _ | fuel
      · simp [find_fit_loop, find_fit]
      · simp [find_fit_loop, find_fit, heapSize_nil]
  | cons b bs ih =>
      intro mem base asize fuel henc hwf hfuel
      rcases fuel with _ | fuel
      · simp at hfuel
      · have hb : wfB b ∧ b.size < 2 ^ 64 := hwf b (by simp)
        have hmem : mem base = hdrWord b := by
          have h0 := henc 0 (by simp)
          simpa [addrOf_zero, blockAt_cons_zero] using h0
        rw [find_fit_loop]
        have hne : base ≠ base + heapSize (b :: bs) := by
          rw [heapSize_cons]
          have h16 := hb.1.1
          omega
        rw [if_neg hne, hmem, hdrWord_alloc hb.1.2.1, hdrWord_size hb.1.2.1 hb.2]
        by_cases hcond : b.alloc = false ∧ asize ≤ b.size
        · have hcond' : (if b.alloc then 1 else 0) = 0 ∧ asize ≤ b.size := by
            rw [hcond.1]
            exact ⟨rfl, hcond.2⟩
          rw [if_pos hcond', find_fit, if_pos hcond]
          simp [addrOf_zero]
        · have hcond' : ¬((if b.alloc then 1 else 0) = 0 ∧ asize ≤ b.size) := by
            rintro ⟨h1, h2⟩
            apply hcond
            refine ⟨?_, h2⟩
            rcases Bool.eq_false_or_eq_true b.alloc with h | h
            · rw [h] at h1
              simp at h1
            · exact h
          rw [if_neg hcond', find_fit, if_neg hcond]
          have henc' : encodes mem (base + b.size) bs := by
            intro k hk
            have hk1 := henc (k + 1) (by simpa using Nat.succ_lt_succ hk)
            rwa [addrOf_succ_cons, blockAt_cons_succ, ← Nat.add_assoc] at hk1
          have hrec := ih mem (base + b.size) asize fuel henc'
            (fun x hx => hwf x (by simp [hx])) (by simpa using hfuel)
          have hhe : base + heapSize (b :: bs) = base + b.size + heapSize bs := by
            rw [heapSize_cons]
            omega
          rw [hhe, hrec]
          cases hf : find_fit asize bs <;> simp [addrOf_succ_cons]
          omega

/-- C10: under the precondition that every block between `heap_start` and
`heap_end` is at least the 16-byte minimum size and the blocks tile the
range exactly (`encodes` together with `wf`), the step
`bp = bp + GET_SIZE(bp)` strictly increases the scan address, and the
`find_fit` loop reaches `heap_end` after `bs.length` iterations: for every
fuel ≥ the block count it returns the address of the first fitting free
block, or `none` when no free block fits. -/
theorem C10_find_fit_loop_terminates (mem : Nat → Nat) (base : Nat)
    (bs : List Block) (asize : Nat)
    (henc : encodes mem base bs) (hwf : wf bs) :
    (∀ k, k < bs.length → addrOf bs k < addrOf bs (k + 1)) ∧
    ∀ fuel, bs.length ≤ fuel →
      find_fit_loop mem (base + heapSize bs) asize fuel base =
        (find_fit asize bs).map (fun i => base + addrOf bs i) := by
  constructor
  · intro k hk
    rw [addrOf_succ bs k hk]
    have hmem : blockAt bs k ∈ bs := by
      rw [blockAt, List.getD_eq_getElem _ _ hk]
      exact List.getElem_mem hk
    have h16 := (hwf.2 _ hmem).1
    omega
  · intro fuel hfuel
    exact find_fit_loop_eq bs mem base asize fuel henc
      (fun x hx => ⟨hwf.2 x hx, lt_of_le_of_lt (size_le_heapSize hx) hwf.1⟩) hfuel

/-! ## Byte-level machinery for `mm_realloc` -/

theorem digitSum (n w : Nat) :
    ((List.range n).map (fun i => w / 256 ^ i % 256 * 256 ^ i)).sum = w % 256 ^ n := by
  induction n with
  | zero => simp [Nat.mod_one]
  | succ n ih =>
      rw [List.range_succ, List.map_append, List.sum_append, ih]
      simp only [List.map_cons, List.map_nil, List.sum_cons, List.sum_nil]
      rw [Nat.pow_succ, Nat.mod_mul, Nat.mul_comm (w / 256 ^ n % 256) (256 ^ n)]
      omega

theorem blockBytes_length {b : Block} (h : wfB b) :
    (blockBytes b).length = b.size := by
  obtain ⟨h16, _, hd⟩ := h
  simp [blockBytes, hdrBytes, hd]
  omega

theorem heapBytes_cons (b : Block) (bs : List Block) :
    heapBytes (b :: bs) = blockBytes b ++ heapBytes bs := by
  simp [heapBytes]

theorem heapBytes_append (X Y : List Block) :
    heapBytes (X ++ Y) = heapBytes X ++ heapBytes Y := by
  simp [heapBytes]

theorem heapBytes_length (bs : List Block) (h : ∀ b ∈ bs, wfB b) :
    (heapBytes bs).length = heapSize bs := by
  induction bs with
  | nil => rfl
  | cons b bs ih =>
      rw [heapBytes_cons, List.length_append, blockBytes_length (h b (by simp)),
        heapSize_cons, ih (fun x hx => h x (by simp [hx]))]

theorem byteAt_append_right (X Y : List Block) (hX : ∀ x ∈ X, wfB x) (c : Nat) :
    byteAt (X ++ Y) (heapSize X + c) = byteAt Y c := by
  rw [byteAt, byteAt, heapBytes_append,
    List.getD_append_right _ _ _ _ (by rw [heapBytes_length X hX]; omega),
    heapBytes_length X hX]
  congr 1
  omega

theorem byteAt_hdr (b : Block) (Y : List Block) (i : Nat) (hi : i < 8) :
    byteAt (b :: Y) i = hdrWord b / 256 ^ i % 256 := by
  rw [byteAt, heapBytes_cons, blockBytes, List.append_assoc,
    List.getD_append _ _ _ _ (by simp [hdrBytes]; omega)]
  simp [hdrBytes, List.getElem?_map, List.getElem?_range hi]

theorem byteAt_payload (b : Block) (Y : List Block) (j : Nat)
    (hj : j < b.data.length) :
    byteAt (b :: Y) (8 + j) = b.data.getD j 0 := by
  rw [byteAt, heapBytes_cons, blockBytes, List.append_assoc,
    List.getD_append_right _ _ _ _ (by simp [hdrBytes])]
  have harg : 8 + j - (hdrBytes b).length = j := by simp [hdrBytes]
  rw [harg, List.getD_append _ _ _ _ hj]

theorem hdrWord_lt {b : Block} (h : b.size < 2 ^ 64) : hdrWord b < 2 ^ 64 := by
  apply Nat.lt_pow_two_of_testBit
  intro i hi
  rw [hdrWord, PACK, Nat.testBit_lor]
  have h1 : b.size.testBit i = false :=
    Nat.testBit_lt_two_pow (lt_of_lt_of_le h (Nat.pow_le_pow_right (by omega) hi))
  have h2 : (if b.alloc then (1 : Nat) else 0).testBit i = false :=
    testBit_le_one (by split <;> omega) (by omega)
  rw [h1, h2]
  rfl

theorem GET_append_hdr (X : List Block) (b : Block) (Y : List Block)
    (hX : ∀ x ∈ X, wfB x) (hlt : b.size < 2 ^ 64) :
    GET (X ++ b :: Y) (heapSize X) = hdrWord b := by
  rw [GET]
  have hmap : ((List.range 8).map
        (fun i => byteAt (X ++ b :: Y) (heapSize X + i) * 256 ^ i)) =
      ((List.range 8).map (fun i => hdrWord b / 256 ^ i % 256 * 256 ^ i)) := by
    apply List.map_congr_left
    intro i hi
    rw [byteAt_append_right X (b :: Y) hX i, byteAt_hdr b Y i (List.mem_range.mp hi)]
  rw [hmap, digitSum]
  have h8 : (256 : Nat) ^ 8 = 2 ^ 64 := by norm_num
  rw [h8, Nat.mod_eq_of_lt (hdrWord_lt hlt)]

theorem overwriteFrom_zero_length (d v : List Nat) :
    (overwriteFrom d 0 v).length = d.length := by
  simp [overwriteFrom]
  omega

theorem overwriteFrom_zero_getD (d v : List Nat) (j : Nat)
    (hjv : j < v.length) (hjd : j < d.length) :
    (overwriteFrom d 0 v).getD j 0 = v.getD j 0 := by
  rw [overwriteFrom]
  simp only [List.take_zero, List.nil_append, Nat.zero_add, Nat.sub_zero]
  rw [List.getD_append _ _ _ _ (by simp; omega)]
  simp only [List.getD_eq_getElem?_getD]
  rw [List.getElem?_take_of_lt hjd]

theorem getD_map_range (f : Nat → Nat) (n j : Nat) (hj : j < n) :
    ((List.range n).map f).getD j 0 = f j := by
  simp [List.getElem?_map, List.getElem?_range hj]

theorem writeBytesAt_append (X : List Block) (b : Block) (Y : List Block)
    (hX : ∀ x ∈ X, 0 < x.size) (c : Nat) (hc : c < b.size) (v : List Nat) :
    writeBytesAt (X ++ b :: Y) (heapSize X + c) v =
      X ++ ⟨b.size, b.alloc, overwriteFrom b.data (c - 8) v⟩ :: Y := by
  induction X with
  | nil =>
      simp only [List.nil_append, heapSize_nil, Nat.zero_add]
      rw [show writeBytesAt (b :: Y) c v =
        if c < b.size then ⟨b.size, b.alloc, overwriteFrom b.data (c - 8) v⟩ :: Y
        else b :: writeBytesAt Y (c - b.size) v from rfl]
      rw [if_pos hc]
  | cons x X ih =>
      have hx : 0 < x.size := hX x (by simp)
      rw [List.cons_append]
      rw [show writeBytesAt (x :: (X ++ b :: Y)) (heapSize (x :: X) + c) v =
        if heapSize (x :: X) + c < x.size then
          ⟨x.size, x.alloc, overwriteFrom x.data (heapSize (x :: X) + c - 8) v⟩ ::
            (X ++ b :: Y)
        else x :: writeBytesAt (X ++ b :: Y) (heapSize (x :: X) + c - x.size) v from rfl]
      rw [if_neg (by rw [heapSize_cons]; omega)]
      have harg : heapSize (x :: X) + c - x.size = heapSize X + c := by
        rw [heapSize_cons]
        omega
      rw [harg, ih (fun y hy => hX y (by simp [hy]))]
      rfl

theorem placeHead_shape (f : Block) (asize : Nat) (hf : wfB f)
    (h16 : 16 ≤ asize) (h8 : asize % 8 = 0) (hle : asize ≤ f.size)
    (hlt : f.size < 2 ^ 64) :
    ∃ nb T, placeHead f asize = nb :: T ∧ nb.alloc = true ∧ asize ≤ nb.size ∧
      wfB nb ∧ (∀ x ∈ T, wfB x) ∧ heapSize (nb :: T) = f.size := by
  have hwfall := placeHead_wfB f asize hf h16 h8 hle hlt
  have hsz := heapSize_placeHead f asize hle hlt
  simp only [placeHead, sub64_eq hle hlt] at hwfall hsz ⊢
  by_cases hc : 16 ≤ f.size - asize
  · rw [if_pos hc] at hwfall hsz ⊢
    refine ⟨_, _, rfl, rfl, le_refl _, hwfall _ (by simp), ?_, hsz⟩
    intro x hx
    exact hwfall x (List.mem_cons_of_mem _ hx)
  · rw [if_neg hc] at hwfall hsz ⊢
    exact ⟨_, _, rfl, rfl, hle, hwfall _ (by simp),
      fun x hx => absurd hx (List.not_mem_nil x), hsz⟩

theorem free_head_shape (b : Block) (W : List Block)
    (hbound : b.size + (blockAt W 0).size < 2 ^ 64) :
    ∃ ob D, free_head (b :: W) = ob :: D ∧ ob.alloc = false ∧ b.size ≤ ob.size := by
  cases W with
  | nil => exact ⟨_, _, free_head_single b, rfl, le_refl _⟩
  | cons c cs =>
      rcases Bool.eq_false_or_eq_true c.alloc with h | h
      · exact ⟨_, _, free_head_cons_alloc b c cs h, rfl, le_refl _⟩
      · rw [blockAt_cons_zero] at hbound
        refine ⟨_, _, free_head_cons_free b c cs h, rfl, ?_⟩
        show b.size ≤ (b.size + c.size) % wordMod
        have hm : (b.size + c.size) % wordMod = b.size + c.size :=
          Nat.mod_eq_of_lt hbound
        rw [hm]
        omega

theorem mm_malloc_eq_fit (bs : List Block) (m i : Nat)
    (hf : find_fit (asize_of m) bs = some i) :
    mm_malloc bs m = (place bs i (asize_of m), addrOf bs i + 8) := by
  unfold mm_malloc mm_malloc_x
  simp [hf]

theorem mm_malloc_eq_nofit (bs : List Block) (m : Nat)
    (hf : find_fit (asize_of m) bs = none) :
    mm_malloc bs m =
      (bs ++ [⟨asize_of m, true, List.replicate (asize_of m - 8) 0⟩],
        heapSize bs + 8) := by
  unfold mm_malloc mm_malloc_x
  simp [hf]

theorem mm_realloc_eq (bs : List Block) (ptr m : Nat) :
    mm_realloc bs ptr m =
      (mm_free_p (memcpyHeap (mm_malloc bs m).1 (mm_malloc bs m).2 ptr
          (min m (GET_SIZE (GET (mm_malloc bs m).1 (ptr - 8))))) ptr,
        (mm_malloc bs m).2) := by
  unfold mm_realloc mm_realloc_x mm_malloc mm_malloc_x
  cases hf : find_fit (asize_of m) bs <;> simp [hf]

theorem mem_mid (A : List Block) (b : Block) (B : List Block) :
    b ∈ A ++ b :: B := List.mem_append_right A (List.mem_cons_self b B)

theorem mem_left {x : Block} {A : List Block} (hx : x ∈ A) (b : Block)
    (B : List Block) : x ∈ A ++ b :: B := List.mem_append_left _ hx

theorem mem_right {x : Block} {B : List Block} (hx : x ∈ B) (A : List Block)
    (b : Block) : x ∈ A ++ b :: B :=
  List.mem_append_right _ (List.mem_cons_of_mem _ hx)

/-- Decomposed effect of `mm_malloc` on a heap containing a marked
allocated block `b`: the marked block's contents and address are
untouched, and the returned payload pointer addresses a fresh allocated
block `nb` of size at least `asize`, lying entirely before or entirely
after `b`. -/
theorem mm_malloc_shape (A : List Block) (b : Block) (B : List Block) (m : Nat)
    (hwf : wf (A ++ b :: B)) (halloc : b.alloc = true)
    (h16 : 16 ≤ asize_of m) (h8 : asize_of m % 8 = 0) :
    ∃ nb : Block, nb.alloc = true ∧ wfB nb ∧ asize_of m ≤ nb.size ∧
      ((∃ U V W, (mm_malloc (A ++ b :: B) m).1 = U ++ nb :: (V ++ b :: W) ∧
          (mm_malloc (A ++ b :: B) m).2 = heapSize U + 8 ∧
          heapSize U + nb.size + heapSize V = heapSize A ∧
          heapSize (U ++ nb :: (V ++ b :: W)) ≤
            heapSize (A ++ b :: B) + asize_of m ∧
          ∀ x ∈ U ++ nb :: (V ++ b :: W), wfB x) ∨
       (∃ V W, (mm_malloc (A ++ b :: B) m).1 = A ++ b :: (V ++ nb :: W) ∧
          (mm_malloc (A ++ b :: B) m).2 = heapSize A + b.size + heapSize V + 8 ∧
          heapSize (A ++ b :: (V ++ nb :: W)) ≤
            heapSize (A ++ b :: B) + asize_of m ∧
          ∀ x ∈ A ++ b :: (V ++ nb :: W), wfB x)) := by
  have hball : ∀ x ∈ A ++ b :: B, wfB x := hwf.2
  cases hf : find_fit (asize_of m) (A ++ b :: B) with
  | none =>
      rw [mm_malloc_eq_nofit _ _ hf]
      refine ⟨⟨asize_of m, true, List.replicate (asize_of m - 8) 0⟩, rfl,
        ⟨h16, h8, by simp⟩, le_refl _, Or.inr ⟨B, [], ?_, ?_, ?_, ?_⟩⟩
      · simp
      · simp only [heapSize_append, heapSize_cons]
        omega
      · simp only [heapSize_append, heapSize_cons, heapSize_nil]
        simp
        omega
      · intro x hx
        rw [show A ++ b :: (B ++ (⟨asize_of m, true,
            List.replicate (asize_of m - 8) 0⟩ : Block) :: []) =
          (A ++ b :: B) ++ [⟨asize_of m, true, List.replicate (asize_of m - 8) 0⟩]
          by simp] at hx
        rcases List.mem_append.mp hx with h | h
        · exact hball x h
        · rw [List.mem_singleton] at h
          subst h
          exact ⟨h16, h8, by simp⟩
  | some i =>
      obtain ⟨hilen, hifree, hifit⟩ := find_fit_sound _ _ _ hf
      have hne : i ≠ A.length := by
        intro h
        rw [h, blockAt_prefix, halloc] at hifree
        cases hifree
      rw [mm_malloc_eq_fit _ _ _ hf]
      rcases Nat.lt_or_ge i A.length with hi | hi
      · -- the fit block lies strictly before `b`
        have hAi : A = A.take i ++ A[i] :: A.drop (i + 1) := by
          conv_lhs => rw [← List.take_append_drop i A]
          rw [List.drop_eq_getElem_cons hi]
        have hbs : A ++ b :: B = A.take i ++ A[i] :: (A.drop (i + 1) ++ b :: B) := by
          conv_lhs => rw [hAi]
          rw [List.append_assoc, List.cons_append]
        have hlen : (A.take i).length = i := by
          simp [List.length_take]
          omega
        have hblk : blockAt (A ++ b :: B) i = A[i] := by
          have h1 := blockAt_prefix (A.take i) (A[i]) (A.drop (i + 1) ++ b :: B)
          rw [hlen] at h1
          rw [hbs, h1]
        have hAimem : A[i] ∈ A ++ b :: B := mem_left (List.getElem_mem hi) b B
        have hfwf : wfB A[i] := hball _ hAimem
        have hflt : A[i].size < 2 ^ 64 :=
          lt_of_le_of_lt (size_le_heapSize hAimem) hwf.1
        rw [hblk] at hifit
        obtain ⟨nb, T, hph, hnba, hnble, hnbwf, hTwf, hphs⟩ :=
          placeHead_shape (A[i]) (asize_of m) hfwf h16 h8 hifit hflt
        have hplace : place (A ++ b :: B) i (asize_of m) =
            A.take i ++ (placeHead (A[i]) (asize_of m) ++
              (A.drop (i + 1) ++ b :: B)) := by
          conv_lhs => rw [hbs]
          have h2 := place_append (A.take i) (A[i])
            (A.drop (i + 1) ++ b :: B) (asize_of m)
          rw [hlen] at h2
          exact h2
        have haddr : addrOf (A ++ b :: B) i = heapSize (A.take i) := by
          have h3 := addrOf_prefix (A.take i) (A[i] :: (A.drop (i + 1) ++ b :: B))
          rw [hlen] at h3
          rw [hbs, h3]
        have hsplit : heapSize A =
            heapSize (A.take i) + A[i].size + heapSize (A.drop (i + 1)) := by
          conv_lhs => rw [hAi]
          rw [heapSize_append, heapSize_cons]
          omega
        have hphsum : nb.size + heapSize T = A[i].size := by
          rw [← heapSize_cons, hphs]
        refine ⟨nb, hnba, hnbwf, hnble,
          Or.inl ⟨A.take i, T ++ A.drop (i + 1), B, ?_, ?_, ?_, ?_, ?_⟩⟩
        · simp only [hplace, hph]
          simp
        · simp only [haddr]
        · rw [heapSize_append]
          omega
        · simp only [heapSize_append, heapSize_cons]
          omega
        · intro x hx
          rcases List.mem_append.mp hx with h | h
          · exact hball x (mem_left (List.mem_of_mem_take h) b B)
          · rcases List.mem_cons.mp h with rfl | h
            · exact hnbwf
            · rcases List.mem_append.mp h with h | h
              · rcases List.mem_append.mp h with h | h
                · exact hTwf x h
                · exact hball x (mem_left (List.mem_of_mem_drop h) b B)
              · rcases List.mem_cons.mp h with rfl | h
                · exact hball x (mem_mid A x B)
                · exact hball x (mem_right h A b)
      · -- the fit block lies strictly after `b`
        have hi' : A.length + 1 ≤ i := by omega
        have hlenbs : (A ++ b :: B).length = A.length + 1 + B.length := by
          simp
          omega
        have hk : i - A.length - 1 < B.length := by omega
        have hBk : B = B.take (i - A.length - 1) ++
            B[i - A.length - 1] :: B.drop (i - A.length - 1 + 1) := by
          conv_lhs => rw [← List.take_append_drop (i - A.length - 1) B]
          rw [List.drop_eq_getElem_cons hk]
        have hbs : A ++ b :: B = (A ++ b :: B.take (i - A.length - 1)) ++
            B[i - A.length - 1] :: B.drop (i - A.length - 1 + 1) := by
          conv_lhs => rw [hBk]
          simp
        have hlen2 : (A ++ b :: B.take (i - A.length - 1)).length = i := by
          simp [List.length_take]
          omega
        have hblk : blockAt (A ++ b :: B) i = B[i - A.length - 1] := by
          have h1 := blockAt_prefix (A ++ b :: B.take (i - A.length - 1))
            (B[i - A.length - 1]) (B.drop (i - A.length - 1 + 1))
          rw [hlen2] at h1
          rw [hbs, h1]
        have hBmem : B[i - A.length - 1] ∈ A ++ b :: B :=
          mem_right (List.getElem_mem hk) A b
        have hfwf : wfB B[i - A.length - 1] := hball _ hBmem
        have hflt : B[i - A.length - 1].size < 2 ^ 64 :=
          lt_of_le_of_lt (size_le_heapSize hBmem) hwf.1
        rw [hblk] at hifit
        obtain ⟨nb, T, hph, hnba, hnble, hnbwf, hTwf, hphs⟩ :=
          placeHead_shape (B[i - A.length - 1]) (asize_of m) hfwf h16 h8 hifit hflt
        have hplace : place (A ++ b :: B) i (asize_of m) =
            (A ++ b :: B.take (i - A.length - 1)) ++
              (placeHead (B[i - A.length - 1]) (asize_of m) ++
                B.drop (i - A.length - 1 + 1)) := by
          conv_lhs => rw [hbs]
          have h2 := place_append (A ++ b :: B.take (i - A.length - 1))
            (B[i - A.length - 1]) (B.drop (i - A.length - 1 + 1)) (asize_of m)
          rw [hlen2] at h2
          exact h2
        have haddr : addrOf (A ++ b :: B) i =
            heapSize (A ++ b :: B.take (i - A.length - 1)) := by
          have h3 := addrOf_prefix (A ++ b :: B.take (i - A.length - 1))
            (B[i - A.length - 1] :: B.drop (i - A.length - 1 + 1))
          rw [hlen2] at h3
          rw [hbs, h3]
        have hsplit : heapSize B = heapSize (B.take (i - A.length - 1)) +
            B[i - A.length - 1].size + heapSize (B.drop (i - A.length - 1 + 1)) := by
          conv_lhs => rw [hBk]
          rw [heapSize_append, heapSize_cons]
          omega
        have hphsum : nb.size + heapSize T = B[i - A.length - 1].size := by
          rw [← heapSize_cons, hphs]
        refine ⟨nb, hnba, hnbwf, hnble,
          Or.inr ⟨B.take (i - A.length - 1), T ++ B.drop (i - A.length - 1 + 1),
            ?_, ?_, ?_, ?_⟩⟩
        · simp only [hplace, hph]
          simp
        · simp only [haddr, heapSize_append, heapSize_cons]
          omega
        · simp only [heapSize_append, heapSize_cons]
          omega
        · intro x hx
          rcases List.mem_append.mp hx with h | h
          · exact hball x (mem_left h b B)
          · rcases List.mem_cons.mp h with rfl | h
            · exact hball x (mem_mid A x B)
            · rcases List.mem_append.mp h with h | h
              · exact hball x (mem_right (List.mem_of_mem_take h) A b)
              · rcases List.mem_cons.mp h with rfl | h
                · exact hnbwf
                · rcases List.mem_append.mp h with h | h
                  · exact hTwf x h
                  · exact hball x (mem_right (List.mem_of_mem_drop h) A b)

theorem blockAt_zero_size_le (l : List Block) : (blockAt l 0).size ≤ heapSize l := by
  cases l with
  | nil => simp [blockAt, dfltB, heapSize_nil]
  | cons c cs =>
      rw [blockAt_cons_zero, heapSize_cons]
      omega

/-- Freeing a block whose prefix `X` is untouched: the prefix survives and
the freed (possibly merged) block follows it. -/
theorem free_at_after_shape (X : List Block) (b : Block) (W : List Block)
    (hX : ∀ x ∈ X, 0 < x.size)
    (hbound : b.size + (blockAt W 0).size < 2 ^ 64) :
    ∃ ob D, free_at (X ++ b :: W) (heapSize X) = X ++ ob :: D ∧
      ob.alloc = false ∧ b.size ≤ ob.size := by
  rw [free_at_append X _ hX]
  obtain ⟨ob, D, h, h2, h3⟩ := free_head_shape b W hbound
  exact ⟨ob, D, by rw [h], h2, h3⟩

/-- Freeing the block `b` when an allocated block `nb` lies after it
(possibly with blocks `V` in between): `nb` survives unchanged at its
address, and the freed (possibly merged) block sits right after `A`. -/
theorem free_at_mid_shape (A : List Block) (b : Block) (V : List Block)
    (nb : Block) (W : List Block) (hA : ∀ x ∈ A, 0 < x.size)
    (hnba : nb.alloc = true)
    (hbound : b.size + (blockAt (V ++ nb :: W) 0).size < 2 ^ 64) :
    ∃ C D, free_at (A ++ b :: (V ++ nb :: W)) (heapSize A) = C ++ nb :: D ∧
      heapSize C = heapSize A + b.size + heapSize V ∧
      ∃ ob D', free_at (A ++ b :: (V ++ nb :: W)) (heapSize A) = A ++ ob :: D' ∧
        ob.alloc = false ∧ b.size ≤ ob.size := by
  rw [free_at_append A _ hA]
  cases V with
  | nil =>
      rw [List.nil_append, free_head_cons_alloc b nb W hnba]
      refine ⟨A ++ [⟨b.size, false, b.data⟩], W, by simp, ?_,
        ⟨b.size, false, b.data⟩, nb :: W, rfl, rfl, le_refl _⟩
      simp only [heapSize_append, heapSize_cons, heapSize_nil]
      omega
  | cons c V' =>
      rw [show (c :: V') ++ nb :: W = c :: (V' ++ nb :: W) from rfl]
      rcases Bool.eq_false_or_eq_true c.alloc with hc | hc
      · rw [free_head_cons_alloc b c _ hc]
        refine ⟨A ++ ⟨b.size, false, b.data⟩ :: c :: V', W, by simp, ?_,
          ⟨b.size, false, b.data⟩, c :: (V' ++ nb :: W), rfl, rfl, le_refl _⟩
        simp only [heapSize_append, heapSize_cons]
        omega
      · simp only [List.cons_append, blockAt_cons_zero] at hbound
        have hmod : (b.size + c.size) % wordMod = b.size + c.size :=
          Nat.mod_eq_of_lt hbound
        rw [free_head_cons_free b c _ hc]
        refine ⟨A ++ ⟨(b.size + c.size) % wordMod, false,
            b.data ++ hdrBytes c ++ c.data⟩ :: V', W, by simp, ?_,
          ⟨(b.size + c.size) % wordMod, false, b.data ++ hdrBytes c ++ c.data⟩,
          V' ++ nb :: W, rfl, rfl, ?_⟩
        · simp only [heapSize_append, heapSize_cons, hmod]
          omega
        · show b.size ≤ (b.size + c.size) % wordMod
          rw [hmod]
          omega

/-! ## C8: reallocation -/

/-- C8 fails as stated at `m = 2^64 - 1`: the adjusted size computation
wraps to 8, no fit exists, an 8-byte block with an empty payload is carved
at the end of the heap, and the returned pointer's payload has 0 usable
bytes rather than at least `m`. -/
theorem C8_counterexample :
    (mm_realloc [⟨32, true, List.replicate 24 7⟩] 8 (2 ^ 64 - 1)).2 = 40 ∧
    blockAt (mm_realloc [⟨32, true, List.replicate 24 7⟩] 8 (2 ^ 64 - 1)).1 1 =
      ⟨8, true, []⟩ ∧
    ¬(2 ^ 64 - 1 ≤
      (blockAt (mm_realloc [⟨32, true, List.replicate 24 7⟩] 8
        (2 ^ 64 - 1)).1 1).data.length) := by
  decide

/-- C8 amended (with `m` below the `size_t` overflow region and the grown
heap within the address space): `mm_realloc(ptr, m)` on a live allocated
block allocates a fresh block whose payload holds at least `m` bytes,
copies `min(m, old_block_size)` bytes from the old payload — hence the
first `min(m, old_payload_size)` payload bytes are preserved — frees the
old block (merging it forward if its successor is free), and returns the
new payload pointer. -/
theorem C8_realloc_copy (A : List Block) (b : Block) (B : List Block) (m : Nat)
    (hwf : wf (A ++ b :: B)) (halloc : b.alloc = true)
    (hm : m ≤ 2 ^ 64 - 16)
    (hcap : heapSize (A ++ b :: B) + asize_of m < 2 ^ 64) :
    ∃ C D nb,
      (mm_realloc (A ++ b :: B) (heapSize A + 8) m).1 = C ++ nb :: D ∧
      (mm_realloc (A ++ b :: B) (heapSize A + 8) m).2 = heapSize C + 8 ∧
      nb.alloc = true ∧ m + 8 ≤ nb.size ∧ m ≤ nb.data.length ∧
      (∀ j, j < min m (b.size - 8) → nb.data.getD j 0 = b.data.getD j 0) ∧
      ∃ C' D' ob,
        (mm_realloc (A ++ b :: B) (heapSize A + 8) m).1 = C' ++ ob :: D' ∧
        heapSize C' = heapSize A ∧ ob.alloc = false ∧ b.size ≤ ob.size := by
  obtain ⟨ha8, hage, ha16, -⟩ := asize_facts m hm
  obtain ⟨hS, hball⟩ := hwf
  have hbwf : wfB b := hball b (mem_mid A b B)
  have hblt : b.size < 2 ^ 64 :=
    lt_of_le_of_lt (size_le_heapSize (mem_mid A b B)) hS
  obtain ⟨nb, hnba, hnbwf, hnble, hcase⟩ :=
    mm_malloc_shape A b B m ⟨hS, hball⟩ halloc ha16 (asize_of_mod8 m)
  rw [mm_realloc_eq]
  have hptr8 : heapSize A + 8 - 8 = heapSize A := by omega
  have hnbd : nb.data.length = nb.size - 8 := hnbwf.2.2
  have h8lt : (8 : Nat) < nb.size := by omega
  rcases hcase with ⟨U, V, W, hheap, hptr, hUsum, hbnd, hall⟩ |
    ⟨V, W, hheap, hptr, hbnd, hall⟩
  · -- the fresh block lies strictly before the old block
    have hXwf : ∀ x ∈ U ++ nb :: V, wfB x := by
      intro x hx
      apply hall
      rcases List.mem_append.mp hx with h | h
      · exact List.mem_append_left _ h
      · rcases List.mem_cons.mp h with rfl | h
        · exact List.mem_append_right _ (List.mem_cons_self _ _)
        · exact List.mem_append_right _
            (List.mem_cons_of_mem _ (List.mem_append_left _ h))
    have hXsum : heapSize (U ++ nb :: V) = heapSize A := by
      rw [heapSize_append, heapSize_cons]
      omega
    have hassoc : U ++ nb :: (V ++ b :: W) = (U ++ nb :: V) ++ b :: W := by simp
    have hGET : GET (mm_malloc (A ++ b :: B) m).1 (heapSize A + 8 - 8) =
        hdrWord b := by
      rw [hptr8, hheap, hassoc, ← hXsum]
      exact GET_append_hdr (U ++ nb :: V) b W hXwf hblt
    have hcopy : min m (GET_SIZE (GET (mm_malloc (A ++ b :: B) m).1
        (heapSize A + 8 - 8))) = min m b.size := by
      rw [hGET, hdrWord_size hbwf.2.1 hblt]
    have hread : ∀ j, j < b.size - 8 →
        byteAt (U ++ nb :: (V ++ b :: W)) (heapSize A + 8 + j) =
          b.data.getD j 0 := by
      intro j hj
      rw [hassoc, show heapSize A + 8 + j = heapSize (U ++ nb :: V) + (8 + j) by
        rw [hXsum]; omega]
      rw [byteAt_append_right (U ++ nb :: V) (b :: W) hXwf (8 + j)]
      exact byteAt_payload b W j (by rw [hbwf.2.2]; omega)
    have hUpos : ∀ x ∈ U, 0 < x.size := fun x hx => by
      have := (hXwf x (List.mem_append_left _ hx)).1
      omega
    have hwrite : memcpyHeap (mm_malloc (A ++ b :: B) m).1
        (mm_malloc (A ++ b :: B) m).2 (heapSize A + 8) (min m b.size) =
        U ++ ⟨nb.size, nb.alloc, overwriteFrom nb.data (8 - 8)
          ((List.range (min m b.size)).map
            (fun j => byteAt (U ++ nb :: (V ++ b :: W)) (heapSize A + 8 + j)))⟩ ::
          (V ++ b :: W) := by
      rw [memcpyHeap, hheap, hptr]
      exact writeBytesAt_append U nb (V ++ b :: W) hUpos 8 h8lt _
    set v := (List.range (min m b.size)).map
      (fun j => byteAt (U ++ nb :: (V ++ b :: W)) (heapSize A + 8 + j)) with hv
    have hvlen : v.length = min m b.size := by
      rw [hv]
      simp
    have hlen' : (overwriteFrom nb.data (8 - 8) v).length = nb.size - 8 := by
      rw [show (8 : Nat) - 8 = 0 from rfl, overwriteFrom_zero_length, hnbd]
    have hcopyj : ∀ j, j < min m (b.size - 8) →
        (overwriteFrom nb.data (8 - 8) v).getD j 0 = b.data.getD j 0 := by
      intro j hj
      have hjm : j < m := lt_of_lt_of_le hj (min_le_left _ _)
      have hjb : j < b.size - 8 := lt_of_lt_of_le hj (min_le_right _ _)
      have hb16 := hbwf.1
      rw [show (8 : Nat) - 8 = 0 from rfl]
      rw [overwriteFrom_zero_getD _ _ j (by rw [hvlen]; omega)
        (by rw [hnbd]; omega)]
      rw [hv, getD_map_range _ _ j (by omega)]
      exact hread j hjb
    have hbound : b.size + (blockAt W 0).size < 2 ^ 64 := by
      have h0 := blockAt_zero_size_le W
      have hexp : heapSize (U ++ nb :: (V ++ b :: W)) =
          heapSize U + nb.size + heapSize V + b.size + heapSize W := by
        simp only [heapSize_append, heapSize_cons]
        omega
      have h1 : heapSize U + nb.size + heapSize V + b.size + heapSize W ≤
          heapSize (A ++ b :: B) + asize_of m := by
        rw [← hexp]
        exact hbnd
      omega
    set nb' : Block := ⟨nb.size, nb.alloc, overwriteFrom nb.data (8 - 8) v⟩
      with hnb'
    have hXpos : ∀ x ∈ U ++ nb' :: V, 0 < x.size := by
      intro x hx
      rcases List.mem_append.mp hx with h | h
      · exact hUpos x h
      · rcases List.mem_cons.mp h with rfl | h
        · show 0 < nb.size
          omega
        · have := (hXwf x (List.mem_append_right _
            (List.mem_cons_of_mem _ h))).1
          omega
    have hXsum' : heapSize (U ++ nb' :: V) = heapSize A := by
      rw [heapSize_append, heapSize_cons]
      show heapSize U + (nb.size + heapSize V) = heapSize A
      omega
    obtain ⟨ob, D, hfree, hoba, hoble⟩ :=
      free_at_after_shape (U ++ nb' :: V) b W hXpos hbound
    have hresult : mm_free_p (memcpyHeap (mm_malloc (A ++ b :: B) m).1
        (mm_malloc (A ++ b :: B) m).2 (heapSize A + 8)
        (min m (GET_SIZE (GET (mm_malloc (A ++ b :: B) m).1
          (heapSize A + 8 - 8))))) (heapSize A + 8) =
        (U ++ nb' :: V) ++ ob :: D := by
      rw [hcopy, hwrite, mm_free_p, hptr8]
      rw [show U ++ nb' :: (V ++ b :: W) = (U ++ nb' :: V) ++ b :: W by simp]
      rw [← hXsum']
      exact hfree
    refine ⟨U, V ++ ob :: D, nb', ?_, ?_, hnba, ?_, ?_, hcopyj,
      U ++ nb' :: V, D, ob, ?_, hXsum', hoba, hoble⟩
    · show mm_free_p _ _ = U ++ nb' :: (V ++ ob :: D)
      rw [hresult]
      simp
    · exact hptr
    · show m + 8 ≤ nb.size
      omega
    · show m ≤ (overwriteFrom nb.data (8 - 8) v).length
      rw [hlen']
      omega
    · show mm_free_p _ _ = (U ++ nb' :: V) ++ ob :: D
      exact hresult
  · -- the fresh block lies strictly after the old block
    have hAwf : ∀ x ∈ A, wfB x := fun x hx => hball x (mem_left hx b B)
    have hGET : GET (mm_malloc (A ++ b :: B) m).1 (heapSize A + 8 - 8) =
        hdrWord b := by
      rw [hptr8, hheap]
      exact GET_append_hdr A b (V ++ nb :: W) hAwf hblt
    have hcopy : min m (GET_SIZE (GET (mm_malloc (A ++ b :: B) m).1
        (heapSize A + 8 - 8))) = min m b.size := by
      rw [hGET, hdrWord_size hbwf.2.1 hblt]
    have hassoc2 : A ++ b :: (V ++ nb :: W) = (A ++ b :: V) ++ nb :: W := by
      simp
    have hread : ∀ j, j < b.size - 8 →
        byteAt ((A ++ b :: V) ++ nb :: W) (heapSize A + 8 + j) =
          b.data.getD j 0 := by
      intro j hj
      rw [← hassoc2, show heapSize A + 8 + j = heapSize A + (8 + j) by omega,
        byteAt_append_right A (b :: (V ++ nb :: W)) hAwf (8 + j)]
      exact byteAt_payload b _ j (by rw [hbwf.2.2]; omega)
    have hprepos : ∀ x ∈ A ++ b :: V, 0 < x.size := by
      intro x hx
      have hmem : x ∈ A ++ b :: (V ++ nb :: W) := by
        rcases List.mem_append.mp hx with h | h
        · exact List.mem_append_left _ h
        · rcases List.mem_cons.mp h with rfl | h
          · exact List.mem_append_right _ (List.mem_cons_self _ _)
          · exact List.mem_append_right _
              (List.mem_cons_of_mem _ (List.mem_append_left _ h))
      have := (hall x hmem).1
      omega
    have hpresz : heapSize (A ++ b :: V) = heapSize A + b.size + heapSize V := by
      rw [heapSize_append, heapSize_cons]
      omega
    have hwrite : memcpyHeap (mm_malloc (A ++ b :: B) m).1
        (mm_malloc (A ++ b :: B) m).2 (heapSize A + 8) (min m b.size) =
        (A ++ b :: V) ++ ⟨nb.size, nb.alloc, overwriteFrom nb.data (8 - 8)
          ((List.range (min m b.size)).map
            (fun j => byteAt ((A ++ b :: V) ++ nb :: W) (heapSize A + 8 + j)))⟩ ::
          W := by
      rw [memcpyHeap, hheap, hptr, hassoc2,
        show heapSize A + b.size + heapSize V + 8 = heapSize (A ++ b :: V) + 8 by
          rw [hpresz]]
      exact writeBytesAt_append (A ++ b :: V) nb W hprepos 8 h8lt _
    set v := (List.range (min m b.size)).map
      (fun j => byteAt ((A ++ b :: V) ++ nb :: W) (heapSize A + 8 + j)) with hv
    have hvlen : v.length = min m b.size := by
      rw [hv]
      simp
    have hlen' : (overwriteFrom nb.data (8 - 8) v).length = nb.size - 8 := by
      rw [show (8 : Nat) - 8 = 0 from rfl, overwriteFrom_zero_length, hnbd]
    have hcopyj : ∀ j, j < min m (b.size - 8) →
        (overwriteFrom nb.data (8 - 8) v).getD j 0 = b.data.getD j 0 := by
      intro j hj
      have hjm : j < m := lt_of_lt_of_le hj (min_le_left _ _)
      have hjb : j < b.size - 8 := lt_of_lt_of_le hj (min_le_right _ _)
      have hb16 := hbwf.1
      rw [show (8 : Nat) - 8 = 0 from rfl]
      rw [overwriteFrom_zero_getD _ _ j (by rw [hvlen]; omega)
        (by rw [hnbd]; omega)]
      rw [hv, getD_map_range _ _ j (by omega)]
      exact hread j hjb
    set nb' : Block := ⟨nb.size, nb.alloc, overwriteFrom nb.data (8 - 8) v⟩
      with hnb'
    have hApos : ∀ x ∈ A, 0 < x.size := fun x hx => by
      have := (hAwf x hx).1
      omega
    have hbound : b.size + (blockAt (V ++ nb' :: W) 0).size < 2 ^ 64 := by
      have h0 := blockAt_zero_size_le (V ++ nb' :: W)
      have hexpv : heapSize (V ++ nb' :: W) = heapSize V + nb.size + heapSize W := by
        simp only [heapSize_append, heapSize_cons]
        show heapSize V + (nb.size + heapSize W) = heapSize V + nb.size + heapSize W
        omega
      have hexp : heapSize (A ++ b :: (V ++ nb :: W)) =
          heapSize A + b.size + heapSize V + nb.size + heapSize W := by
        simp only [heapSize_append, heapSize_cons]
        omega
      have h1 : heapSize A + b.size + heapSize V + nb.size + heapSize W ≤
          heapSize (A ++ b :: B) + asize_of m := by
        rw [← hexp]
        exact hbnd
      omega
    obtain ⟨C, D, hCD, hCs, ob, D', hoD, hoba, hoble⟩ :=
      free_at_mid_shape A b V nb' W hApos hnba hbound
    have hresult : mm_free_p (memcpyHeap (mm_malloc (A ++ b :: B) m).1
        (mm_malloc (A ++ b :: B) m).2 (heapSize A + 8)
        (min m (GET_SIZE (GET (mm_malloc (A ++ b :: B) m).1
          (heapSize A + 8 - 8))))) (heapSize A + 8) =
        free_at (A ++ b :: (V ++ nb' :: W)) (heapSize A) := by
      rw [hcopy, hwrite, mm_free_p, hptr8]
      rw [show (A ++ b :: V) ++ nb' :: W = A ++ b :: (V ++ nb' :: W) by simp]
    refine ⟨C, D, nb', ?_, ?_, hnba, ?_, ?_, hcopyj, A, D', ob, ?_, rfl,
      hoba, hoble⟩
    · rw [hresult, hCD]
    · rw [hresult, hCD]
      rw [hptr, hCs]
    · show m + 8 ≤ nb.size
      omega
    · show m ≤ (overwriteFrom nb.data (8 - 8) v).length
      rw [hlen']
      omega
    · rw [hresult, hoD]

/-- Witness for the amended C8: reallocating the single 32-byte allocated
block of a one-block heap to 40 bytes. -/
theorem C8_realloc_copy_witness :
    ∃ C D nb,
      (mm_realloc ([] ++ (⟨32, true, List.replicate 24 7⟩ : Block) :: [])
        (heapSize ([] : List Block) + 8) 40).1 = C ++ nb :: D ∧
      (mm_realloc ([] ++ (⟨32, true, List.replicate 24 7⟩ : Block) :: [])
        (heapSize ([] : List Block) + 8) 40).2 = heapSize C + 8 ∧
      nb.alloc = true ∧ 40 + 8 ≤ nb.size ∧ 40 ≤ nb.data.length ∧
      (∀ j, j < min 40 ((⟨32, true, List.replicate 24 7⟩ : Block).size - 8) →
        nb.data.getD j 0 =
          (⟨32, true, List.replicate 24 7⟩ : Block).data.getD j 0) ∧
      ∃ C' D' ob,
        (mm_realloc ([] ++ (⟨32, true, List.replicate 24 7⟩ : Block) :: [])
          (heapSize ([] : List Block) + 8) 40).1 = C' ++ ob :: D' ∧
        heapSize C' = heapSize ([] : List Block) ∧ ob.alloc = false ∧
        (⟨32, true, List.replicate 24 7⟩ : Block).size ≤ ob.size :=
  C8_realloc_copy [] ⟨32, true, List.replicate 24 7⟩ [] 40
    (by decide) rfl (by decide) (by decide)

/-- Witness for C10: a one-block heap encoded at base 0, scanned with
fuel 1. -/
theorem C10_find_fit_loop_terminates_witness :
    find_fit_loop (fun _ => hdrWord ⟨16, false, List.replicate 8 0⟩)
        (0 + heapSize [⟨16, false, List.replicate 8 0⟩]) 16 1 0 =
      (find_fit 16 [⟨16, false, List.replicate 8 0⟩]).map
        (fun i => 0 + addrOf [⟨16, false, List.replicate 8 0⟩] i) :=
  (C10_find_fit_loop_terminates (fun _ => hdrWord ⟨16, false, List.replicate 8 0⟩)
      0 [⟨16, false, List.replicate 8 0⟩] 16
      (by
        intro k hk
        have hk0 : k = 0 := by simpa using hk
        subst hk0
        rfl)
      ⟨by decide, by decide⟩).2 1 (by decide)

end MM
